import Mathlib

/-!
Verification of the ghostimports repository (package `ghostmodule`).

The embedding models Python dictionaries as insertion-ordered association
lists (`dinsert` updates a present key in place and appends an absent one,
exactly like CPython dicts), Python object identity of proxy instances as
allocation indices into a world-level allocation list, and the import
machinery (`importlib.import_module`, file execution) as explicit
environments passed to the functions that use them.
-/

namespace Ghost

/-- First-match lookup in an insertion-ordered association list
(Python `d[k]` / `d.get(k)`). -/
def dlookup {β : Type} : List (String × β) → String → Option β
  | [], _ => none
  | (a, v) :: rest, k => if a = k then some v else dlookup rest k

/-- Python `k in d`. -/
def dcontains {β : Type} (d : List (String × β)) (k : String) : Bool :=
  (dlookup d k).isSome

/-- Python `d[k] = v`: update in place when the key is present, append
when it is absent (CPython dicts keep insertion order). -/
def dinsert {β : Type} : List (String × β) → String → β → List (String × β)
  | [], k, v => [(k, v)]
  | (a, w) :: rest, k, v =>
      if a = k then (a, v) :: rest else (a, w) :: dinsert rest k v

/-- Python `{**d1, **d2}`. -/
def dmerge {β : Type} (d1 d2 : List (String × β)) : List (String × β) :=
  d2.foldl (fun d e => dinsert d e.1 e.2) d1

/-- The keys of an association list are pairwise distinct. -/
def NoDupKeys {β : Type} (d : List (String × β)) : Prop :=
  (d.map Prod.fst).Nodup

instance {β : Type} (d : List (String × β)) : Decidable (NoDupKeys d) := by
  unfold NoDupKeys; infer_instance

/-- A value bound in the live namespace (`ipython.user_ns`).  Proxy
instances carry their allocation index so that Python object identity is
expressible: two bindings hold the same instance iff they hold the same
index.  `modVal p` is the concrete module object obtained by importing
path `p`; `userVal` is an arbitrary pre-existing user value. -/
inductive Value : Type where
  | ghost (gid : Nat)
  | userGhost (uid : Nat)
  | modVal (path : String)
  | userVal (tag : Nat)
deriving DecidableEq, Repr

/-- Python `isinstance(v, GhostModule)` on a namespace slot. -/
def isGhostVal : Option Value → Bool
  | some (Value.ghost _) => true
  | _ => false

/-- The mutable fields of one `GhostModule` instance (core.py lines 13-17):
`_module_name`, `_alias`, `_registry_entry`, and the memoized `_module`
(`none` before the first successful load; after loading it holds the path
whose module object `Value.modVal` it memoizes). -/
structure GhostInfo : Type where
  module_name : String
  display : String
  registry_entry : String
  loadedM : Option String
deriving DecidableEq, Repr

/-- The mutable fields of one `UserDefinedGhost` instance (core.py lines
71-75): `_alias`, `_file_path`, `_imports` and the memoized `_loaded`
dict (values of the executed file are opaque, modelled as `Nat` tags). -/
structure UDGhost : Type where
  ud_alias : String
  file_path : String
  file_imports : List String
  loadedD : List (String × Nat)
deriving DecidableEq, Repr

/-- The stored shape of one `user_defined` registry entry
(registry.py lines 45-48): a dict with exactly the keys `file_path`
and `imports`. -/
structure UDEntry : Type where
  file_path : String
  file_imports : List String
deriving DecidableEq, Repr

/-- The persisted JSON document `~/.ghostmodule/user_modules.json`
(registry.py lines 112-124): keys `modules` and `user_defined`. -/
structure StoreDoc : Type where
  modules : List (String × String)
  user_defined : List (String × UDEntry)
deriving DecidableEq, Repr

/-- Class `ModuleRegistry` state (registry.py lines 9-14) together with the
contents of its backing store, so that persistence effects are visible. -/
structure Registry : Type where
  builtin_modules : List (String × String)
  user_modules : List (String × String)
  user_defined : List (String × UDEntry)
  store : StoreDoc
deriving DecidableEq, Repr

/-- Method `ModuleRegistry._save_user_modules` (registry.py lines 112-124):
rewrites the backing document from the in-memory tables. -/
def save_user_modules (r : Registry) : Registry :=
  { r with store := ⟨r.user_modules, r.user_defined⟩ }

/-- Method `ModuleRegistry.register_user_module` (registry.py lines 20-32). -/
def register_user_module (r : Registry) (al mp : String) (persist : Bool) : Registry :=
  let r := { r with user_modules := dinsert r.user_modules al mp }
  if persist then save_user_modules r else r

/-- Method `ModuleRegistry.register_user_defined` (registry.py lines 34-51).
Note the source signature: `(self, alias, file_path, imports, persist)` —
there is no `inject_directly` parameter. -/
def register_user_defined (r : Registry) (al fp : String) (names : List String)
    (persist : Bool) : Registry :=
  let r := { r with user_defined := dinsert r.user_defined al ⟨fp, names⟩ }
  if persist then save_user_modules r else r

/-- Method `ModuleRegistry.get_module_path` (registry.py lines 53-72). -/
def get_module_path (r : Registry) (name : String) : Option String :=
  match dlookup r.user_modules name with
  | some p => some p
  | none =>
    match dlookup r.builtin_modules name with
    | some p => some p
    | none =>
      if (dmerge r.builtin_modules r.user_modules).any (fun e => e.2 = name)
      then some name else none

/-- The parameter names of `ModuleRegistry.register_user_defined`
(registry.py lines 34-35), after `self`. -/
def registerUserDefinedParamNames : List String :=
  ["alias", "file_path", "imports", "persist"]

/-- The keyword-argument names passed by `add_user_defined_cmd` in the
call `registry.register_user_defined(alias, file_path, imports_list,
persist=permanent, inject_directly=direct)` (cli.py line 59). -/
def addUserDefinedCmdKwargNames : List String :=
  ["persist", "inject_directly"]

/-- A Python call raises `TypeError` when a keyword argument does not
name a parameter of the callee; this predicate holds when every keyword
is accepted. -/
def pythonCallAccepts (params kwargs : List String) : Bool :=
  kwargs.all (fun k => params.contains k)

/-- The keys of the dict stored for a `user_defined` entry
(registry.py lines 45-48). -/
def storedUserDefinedEntryKeys : List String :=
  ["file_path", "imports"]

/-- The live state outside the registry: the IPython namespace
`ipython.user_ns`, the `GhostModule` and `UserDefinedGhost` instances
allocated so far (index = object identity), and a counter of
`importlib.import_module` invocations. -/
structure World : Type where
  ns : List (String × Value)
  ghosts : List GhostInfo
  uds : List UDGhost
  impCount : Nat
deriving DecidableEq, Repr

/-- The namespace-update loop of `GhostModule._load` (core.py lines
34-39): for every `(alias, module_path)` entry of the merged table whose
target equals the loaded module's name, if the namespace currently binds
that alias to a `GhostModule` instance (an `isinstance` test, not an
identity test), overwrite it with the concrete module object. -/
def replaceBindings (target : String) (m : Value) :
    List (String × String) → List (String × Value) → List (String × Value)
  | [], ns => ns
  | e :: rest, ns =>
      replaceBindings target m rest
        (if e.2 = target then
          if isGhostVal (dlookup ns e.1) then dinsert ns e.1 m else ns
        else ns)

/-- Method `GhostModule._load` (core.py lines 19-47) for the proxy instance at
index `g`, in the IPython-present path.  `imp p = true` models
`importlib.import_module(p)` succeeding (returning the module object
`Value.modVal p`); `false` models `ImportError`, which the method
re-raises after printing the pip hint. -/
def loadGhost (r : Registry) (imp : String → Bool) (w : World) (g : Nat) :
    Except String (Value × World) :=
  match w.ghosts.get? g with
  | none => Except.error "invalid proxy"
  | some gi =>
    match gi.loadedM with
    | some m => Except.ok (Value.modVal m, w)
    | none =>
      if imp gi.module_name then
        let w1 : World :=
          { w with
            ghosts := w.ghosts.set g { gi with loadedM := some gi.module_name },
            impCount := w.impCount + 1 }
        let merged := dmerge r.builtin_modules r.user_modules
        let ns := replaceBindings gi.module_name (Value.modVal gi.module_name) merged w1.ns
        Except.ok (Value.modVal gi.module_name, { w1 with ns := ns })
      else
        Except.error ("could not import " ++ gi.module_name)

/-- One attribute-access-triggered load of proxy `g`, keeping only the
world (an `ImportError` propagates to the caller and leaves the world as
it was). -/
def loadStepW (r : Registry) (imp : String → Bool) (g : Nat) (w : World) : World :=
  match loadGhost r imp w g with
  | Except.ok (_, w') => w'
  | Except.error _ => w

/-- Runs `n` successive attribute accesses on proxy `g` (each one calls
`GhostModule.__getattr__`, which calls `_load`). -/
def loadIter (r : Registry) (imp : String → Bool) (g : Nat) : Nat → World → World
  | 0, w => w
  | Nat.succ n, w => loadIter r imp g n (loadStepW r imp g w)

/-- One `UserDefinedGhost` together with a counter of how many times its
file's top-level code has been executed (`spec.loader.exec_module`). -/
structure UDState : Type where
  ghost : UDGhost
  execCount : Nat
deriving DecidableEq, Repr

/-- The per-name copy loop of `UserDefinedGhost._load` (core.py lines
90-94): copy the name's value when the executed module has it, else
record a "not found" diagnostic. -/
def udCopyStep (defs : List (String × Nat))
    (p : List (String × Nat) × List String) (n : String) :
    List (String × Nat) × List String :=
  match dlookup defs n with
  | some v => (dinsert p.1 n v, p.2)
  | none => (p.1, p.2 ++ [n])

/-- Method `UserDefinedGhost._load` (core.py lines 77-113) in the headless path
(the `get_ipython` import fails and the bare `except` passes).  `env fp`
models executing the file at `fp`: `some defs` is the mapping of
top-level names the execution produces, `none` a failure to load the
spec.  Returns the result (`self._loaded` or the raised error), the
updated state, and the list of requested names diagnosed as not found.
Note the memoization guard is `if not self._loaded:` — dict truthiness,
so an *empty* memoized dict does not count as loaded. -/
def udLoad (env : String → Option (List (String × Nat))) (st : UDState) :
    Except String (List (String × Nat)) × UDState × List String :=
  if st.ghost.loadedD ≠ [] then (Except.ok st.ghost.loadedD, st, [])
  else
    match env st.ghost.file_path with
    | none => (Except.error ("Could not load " ++ st.ghost.file_path), st, [])
    | some defs =>
      let res := st.ghost.file_imports.foldl (udCopyStep defs) ([], [])
      (Except.ok res.1, ⟨{ st.ghost with loadedD := res.1 }, st.execCount + 1⟩, res.2)

/-- Method `UserDefinedGhost.__getattr__` (core.py lines 115-120): load, then
return the memoized value for a known name or raise `AttributeError`. -/
def udGetattr (env : String → Option (List (String × Nat))) (st : UDState)
    (name : String) : Except String Nat × UDState :=
  match udLoad env st with
  | (Except.ok ld, st', _) =>
    match dlookup ld name with
    | some v => (Except.ok v, st')
    | none => (Except.error ("no attribute " ++ name), st')
  | (Except.error e, st', _) => (Except.error e, st')

/-- Python `min(aliases, key=len)` (core.py line 172): the first element
of minimal length, in list order. -/
def minByLen : List String → String
  | [] => ""
  | [a] => a
  | a :: b :: rest =>
      let m := minByLen (b :: rest)
      if a.length ≤ m.length then a else m

/-- Python `module_path.split('.')[-1]` (core.py line 184): the suffix
after the last dot. -/
def lastSegment (s : String) : String :=
  String.mk ((s.data.reverse.takeWhile (fun c => c ≠ '.')).reverse)

/-- The reverse mapping `module_path -> list of aliases` built by
`activate` (core.py lines 159-163), in the iteration order of the merged
table. -/
def buildReverse (all : List (String × String)) : List (String × List String) :=
  all.foldl (fun m e =>
    match dlookup m e.2 with
    | some l => dinsert m e.2 (l ++ [e.1])
    | none => dinsert m e.2 [e.1]) []

/-- The inner alias loop of `activate` (core.py lines 177-180): bind the
shared proxy under every alias not already present, recording each newly
bound name. -/
def bindAliases (gid : Nat) (aliases : List String)
    (acc : List (String × Value) × List String) :
    List (String × Value) × List String :=
  aliases.foldl (fun p a =>
    if dcontains p.1 a then p
    else (dinsert p.1 a (Value.ghost gid), p.2 ++ [a])) acc

/-- The trailing-segment binding of `activate` (core.py lines 182-187):
bind the proxy under the last dotted component of the target when that
name is neither a known alias nor already present. -/
def bindBase (gid : Nat) (path : String) (all : List (String × String))
    (acc : List (String × Value) × List String) :
    List (String × Value) × List String :=
  let base := lastSegment path
  if dcontains all base = false ∧ dcontains acc.1 base = false
  then (dinsert acc.1 base (Value.ghost gid), acc.2 ++ [base])
  else acc

/-- One iteration of the per-target loop of `activate` (core.py lines
169-187): allocate one shared `GhostModule` for the target and bind it. -/
def groupStep (all : List (String × String)) (acc : World × List String)
    (e : String × List String) : World × List String :=
  let w := acc.1
  let gid := w.ghosts.length
  let w1 := { w with ghosts := w.ghosts ++ [(⟨e.1, minByLen e.2, e.1, none⟩ : GhostInfo)] }
  let p := bindAliases gid e.2 (w1.ns, acc.2)
  let p2 := bindBase gid e.1 all p
  ({ w1 with ns := p2.1 }, p2.2)

/-- The user-defined loop of `activate` (core.py lines 190-198). -/
def bindUserDefined (entries : List (String × UDEntry))
    (acc : World × List String) : World × List String :=
  entries.foldl (fun acc e =>
    let w := acc.1
    if dcontains w.ns e.1 then acc
    else
      ({ w with
         uds := w.uds ++ [(⟨e.1, e.2.file_path, e.2.file_imports, []⟩ : UDGhost)],
         ns := dinsert w.ns e.1 (Value.userGhost (w.uds.length)) },
       acc.2 ++ [e.1 ++ " (user-defined)"])) acc

/-- Result of one `activate` call. -/
structure ActResult : Type where
  reg : Registry
  world : World
  loadedNames : List String
deriving DecidableEq, Repr

/-- The session-only registration of the `custom_aliases` argument
(core.py lines 152-154). -/
def regAfterCustom (r : Registry) (custom : List (String × String)) : Registry :=
  custom.foldl (fun r e => register_user_module r e.1 e.2 false) r

/-- Python `all_modules = ` merge of builtin and user tables, in that
order (core.py line 156). -/
def mergedOf (r : Registry) : List (String × String) :=
  dmerge r.builtin_modules r.user_modules

/-- Mapping `module_to_aliases` as built by `activate` (core.py lines 159-163). -/
def m2aOf (r : Registry) : List (String × List String) :=
  buildReverse (mergedOf r)

/-- Function `activate` (core.py lines 132-204), in the IPython-present path:
register the ad-hoc aliases session-only, merge builtin and user tables,
group aliases by target, allocate one shared proxy per target and bind
it under every absent alias and trailing segment, then bind the
user-defined proxies. -/
def activate (r : Registry) (w : World) (custom : List (String × String))
    (load_user_defined : Bool) : ActResult :=
  let r := regAfterCustom r custom
  let p := (m2aOf r).foldl (groupStep (mergedOf r)) (w, [])
  let p := if load_user_defined then bindUserDefined r.user_defined p else p
  ⟨r, p.1, p.2⟩

/-- An empty persisted document. -/
def emptyStore : StoreDoc := ⟨[], []⟩

/-- A world with an empty namespace and no allocated proxies. -/
def emptyWorld : World := ⟨[], [], [], 0⟩

/-- An import environment in which every import succeeds. -/
def impAll : String → Bool := fun _ => true

/-- Fixture: a registry whose builtin table is
`{"plt": "matplotlib.pyplot"}` (a dotted target, so activation also
binds the trailing segment `pyplot`). -/
def fixPlt : Registry := ⟨[("plt", "matplotlib.pyplot")], [], [], emptyStore⟩

/-- The world produced by activating `fixPlt` on an empty namespace:
`plt` and `pyplot` both bound to the shared proxy instance `0`. -/
def fixPltWorld : World := (activate fixPlt emptyWorld [] true).world

/-- Fixture: two aliases `b` and `a` (in that insertion order) for the
same target `m`. -/
def fixTie : Registry := ⟨[("b", "m"), ("a", "m")], [], [], emptyStore⟩

/-- Fixture: a file environment where executing `f.py` defines only the
name `a` (with opaque value 7), and a `UserDefinedGhost` requesting only
the name `missing` from it. -/
def fixEnvA : String → Option (List (String × Nat)) :=
  fun p => if p = "f.py" then some [("a", 7)] else none

def fixUDMissing : UDState := ⟨⟨"u", "f.py", ["missing"], []⟩, 0⟩

/-- Fixture for the partial-success scenario: `g.py` defines `a`, `b`,
`c`, and the proxy requests `["a", "missing", "b"]`. -/
def fixEnvABC : String → Option (List (String × Nat)) :=
  fun p => if p = "g.py" then some [("a", 1), ("b", 2), ("c", 3)] else none

def fixUDPartial : UDState := ⟨⟨"u", "g.py", ["a", "missing", "b"], []⟩, 0⟩

/-- Fixture: the alias `x` is present in both tables with different
targets; `np` only in builtin. -/
def fixPrec : Registry :=
  ⟨[("np", "numpy"), ("x", "builtintarget")], [("x", "usertarget")], [], emptyStore⟩

/-- Fixture: a world whose namespace already holds a user binding for
`pd` before activation. -/
def fixWpd : World := ⟨[("pd", Value.userVal 5)], [], [], 0⟩

/-- Modelled from the spec: strict lexicographic (dictionary) order on
strings, used only to state the spec's "lexicographically shortest
alias" side of C5 for comparison with what the code computes. -/
def lexLessChars : List Char → List Char → Bool
  | [], [] => false
  | [], _ :: _ => true
  | _ :: _, [] => false
  | c :: cs, d :: ds =>
      if c < d then true else if d < c then false else lexLessChars cs ds

/-- Modelled from the spec: `lexLess s t` iff `s` comes strictly before
`t` in lexicographic order. -/
def lexLess (s t : String) : Bool :=
  lexLessChars s.data t.data


theorem dlookup_cons {β : Type} (a : String) (v : β) (rest : List (String × β))
    (k : String) :
    dlookup ((a, v) :: rest) k = if a = k then some v else dlookup rest k := rfl

theorem dcontains_cons {β : Type} (a : String) (v : β) (rest : List (String × β))
    (k : String) :
    dcontains ((a, v) :: rest) k =
      if a = k then true else dcontains rest k := by
  unfold dcontains
  rw [dlookup_cons]
  by_cases h : a = k <;> simp [h]

theorem dlookup_dinsert_self {β : Type} (d : List (String × β)) (k : String) (v : β) :
    dlookup (dinsert d k v) k = some v := by
  induction d with
  | nil => simp [dinsert, dlookup]
  | cons e rest ih =>
      obtain ⟨a, w⟩ := e
      by_cases h : a = k
      · simp [dinsert, h, dlookup]
      · simp [dinsert, h, dlookup, ih]

theorem dlookup_dinsert_ne {β : Type} (d : List (String × β)) (k k' : String) (v : β)
    (h : k' ≠ k) : dlookup (dinsert d k v) k' = dlookup d k' := by
  have hk : ¬(k = k') := fun hh => h hh.symm
  induction d with
  | nil => simp [dinsert, dlookup, hk]
  | cons e rest ih =>
      obtain ⟨a, w⟩ := e
      by_cases hak : a = k
      · subst hak
        simp [dinsert, dlookup, hk]
      · simp only [dinsert, hak, if_false]
        by_cases hak' : a = k'
        · simp [dlookup_cons, hak']
        · simp [dlookup_cons, hak', ih]

theorem dlookup_dinsert {β : Type} (d : List (String × β)) (k k' : String) (v : β) :
    dlookup (dinsert d k v) k' = if k' = k then some v else dlookup d k' := by
  by_cases h : k' = k
  · subst h; simp [dlookup_dinsert_self]
  · simp [h, dlookup_dinsert_ne d k k' v h]

theorem dinsert_same {β : Type} (d : List (String × β)) (k : String) (v : β)
    (h : dlookup d k = some v) : dinsert d k v = d := by
  induction d with
  | nil => simp [dlookup] at h
  | cons e rest ih =>
      obtain ⟨a, w⟩ := e
      by_cases hak : a = k
      · subst hak
        rw [dlookup_cons] at h
        simp at h
        simp [dinsert, h]
      · rw [dlookup_cons, if_neg hak] at h
        simp [dinsert, hak, ih h]

theorem dcontains_of_mem_keys {β : Type} (d : List (String × β)) (x : String)
    (h : x ∈ d.map Prod.fst) : dcontains d x = true := by
  induction d with
  | nil => simp at h
  | cons e rest ih =>
      obtain ⟨a, w⟩ := e
      rw [List.map_cons, List.mem_cons] at h
      rw [dcontains_cons]
      rcases h with h | h
      · simp [h]
      · by_cases hax : a = x <;> simp [hax, ih h]

theorem keys_dinsert {β : Type} (d : List (String × β)) (k : String) (v : β) :
    (dinsert d k v).map Prod.fst =
      if dcontains d k then d.map Prod.fst else d.map Prod.fst ++ [k] := by
  induction d with
  | nil => simp [dinsert, dcontains, dlookup]
  | cons e rest ih =>
      obtain ⟨a, w⟩ := e
      by_cases hak : a = k
      · subst hak
        simp [dinsert, dcontains_cons]
      · simp only [dinsert, hak, if_false, List.map_cons, ih, dcontains_cons]
        by_cases hc : dcontains rest k <;> simp [hc]

theorem noDupKeys_dinsert {β : Type} (d : List (String × β)) (k : String) (v : β)
    (h : NoDupKeys d) : NoDupKeys (dinsert d k v) := by
  unfold NoDupKeys at *
  rw [keys_dinsert]
  by_cases hc : dcontains d k = true
  · simpa [hc]
  · have hc' : dcontains d k = false := by
      cases hcc : dcontains d k
      · rfl
      · exact absurd hcc hc
    rw [hc']
    simp only [Bool.false_eq_true, if_false]
    rw [List.nodup_append]
    refine ⟨h, List.nodup_singleton k, ?_⟩
    intro x hx hxk
    simp at hxk
    subst hxk
    exact hc (dcontains_of_mem_keys d x hx)

theorem noDupKeys_dmerge {β : Type} (d1 d2 : List (String × β))
    (h : NoDupKeys d1) : NoDupKeys (dmerge d1 d2) := by
  unfold dmerge
  induction d2 generalizing d1 with
  | nil => simpa using h
  | cons e rest ih =>
      simp only [List.foldl_cons]
      exact ih _ (noDupKeys_dinsert _ _ _ h)

theorem dcontains_dinsert_of {β : Type} (d : List (String × β)) (k k' : String) (v : β)
    (h : dcontains d k' = true) : dcontains (dinsert d k v) k' = true := by
  unfold dcontains at *
  rw [dlookup_dinsert]
  by_cases hk : k' = k <;> simp [hk, h]

theorem mem_dlookup {β : Type} (d : List (String × β)) (a : String) (v : β)
    (hnd : NoDupKeys d) (h : (a, v) ∈ d) : dlookup d a = some v := by
  induction d with
  | nil => simp at h
  | cons e rest ih =>
      obtain ⟨b, w⟩ := e
      unfold NoDupKeys at hnd
      rw [List.map_cons, List.nodup_cons] at hnd
      simp at h
      rcases h with ⟨hb, hw⟩ | h
      · subst hb; subst hw; simp [dlookup]
      · have hba : b ≠ a := by
          intro hba
          subst hba
          exact absurd (List.mem_map_of_mem Prod.fst h) hnd.1
        rw [dlookup_cons, if_neg hba]
        exact ih hnd.2 h

/-- C10: registering with `persist = false` updates only the in-memory
table; the backing JSON document and every other table keep their
contents (registry.py lines 20-51: `_save_user_modules` runs only when
`persist` is true). -/
theorem C10_session_only_no_persist (r : Registry) (al mp fp : String)
    (names : List String) :
    (register_user_module r al mp false).store = r.store ∧
    (register_user_module r al mp false).builtin_modules = r.builtin_modules ∧
    (register_user_module r al mp false).user_defined = r.user_defined ∧
    (register_user_defined r al fp names false).store = r.store ∧
    (register_user_defined r al fp names false).builtin_modules = r.builtin_modules ∧
    (register_user_defined r al fp names false).user_modules = r.user_modules :=
  ⟨rfl, rfl, rfl, rfl, rfl, rfl⟩

/-- C6: the claim that `register_user_defined` accepts and records an
`injectDirectly` flag fails on the code.  The method's parameter list
(registry.py lines 34-35) has no `inject_directly` parameter, so the CLI
call `register_user_defined(..., persist=permanent, inject_directly=direct)`
(cli.py line 59) raises `TypeError`, and the stored entry dict
(registry.py lines 45-48) has only the keys `file_path` and `imports`. -/
theorem C6_inject_directly_not_accepted :
    pythonCallAccepts registerUserDefinedParamNames addUserDefinedCmdKwargNames = false ∧
    registerUserDefinedParamNames.contains "inject_directly" = false ∧
    storedUserDefinedEntryKeys.contains "inject_directly" = false ∧
    register_user_defined ⟨[], [], [], emptyStore⟩ "utils" "u.py" ["helper"] false =
      ⟨[], [], [("utils", ⟨"u.py", ["helper"]⟩)], emptyStore⟩ :=
  ⟨by decide, by decide, by decide, rfl⟩

/-- C4: `get_module_path` checks `user_modules` first (userAdded wins),
then `builtin_modules`, then returns the name itself when some merged
entry's target equals it, else `None` (registry.py lines 53-72).  The
function is pure: it reads the tables and returns an `Option`, mutating
nothing. -/
theorem C4_resolve_order (r : Registry) (name : String) :
    (∀ t, dlookup r.user_modules name = some t → get_module_path r name = some t) ∧
    (dlookup r.user_modules name = none →
      ∀ t, dlookup r.builtin_modules name = some t → get_module_path r name = some t) ∧
    (dlookup r.user_modules name = none → dlookup r.builtin_modules name = none →
      (∃ e ∈ dmerge r.builtin_modules r.user_modules, e.2 = name) →
      get_module_path r name = some name) ∧
    (dlookup r.user_modules name = none → dlookup r.builtin_modules name = none →
      (∀ e ∈ dmerge r.builtin_modules r.user_modules, e.2 ≠ name) →
      get_module_path r name = none) := by
  refine ⟨?_, ?_, ?_, ?_⟩
  · intro t ht
    simp [get_module_path, ht]
  · intro hu t hb
    simp [get_module_path, hu, hb]
  · intro hu hb hex
    have ha : (dmerge r.builtin_modules r.user_modules).any
        (fun e => e.2 = name) = true := by
      rw [List.any_eq_true]
      obtain ⟨e, he, hee⟩ := hex
      exact ⟨e, he, by simp [hee]⟩
    simp [get_module_path, hu, hb, ha]
  · intro hu hb hall
    have ha : (dmerge r.builtin_modules r.user_modules).any
        (fun e => e.2 = name) = false := by
      rw [List.any_eq_false]
      intro e he
      simp [hall e he]
    simp [get_module_path, hu, hb, ha]

/-- Witness for C4 at concrete registries: the userAdded target wins for
`x`, `np` resolves through builtin, the real path `numpy` resolves to
itself through the reverse scan, and an unknown name yields `None`. -/
theorem C4_resolve_order_witness :
    get_module_path fixPrec "x" = some "usertarget" ∧
    get_module_path fixPrec "np" = some "numpy" ∧
    get_module_path fixPrec "numpy" = some "numpy" ∧
    get_module_path fixPrec "zzz" = none := by
  refine ⟨?_, ?_, ?_, ?_⟩
  · exact (C4_resolve_order fixPrec "x").1 "usertarget" rfl
  · exact (C4_resolve_order fixPrec "np").2.1 rfl "numpy" rfl
  · exact (C4_resolve_order fixPrec "numpy").2.2.1 rfl rfl
      ⟨("np", "numpy"), by decide, rfl⟩
  · exact (C4_resolve_order fixPrec "zzz").2.2.2 rfl rfl (by decide)

theorem udCopyFold_char (defs : List (String × Nat)) (names : List String)
    (acc : List (String × Nat) × List String) :
    (names.foldl (udCopyStep defs) acc).2 =
        acc.2 ++ names.filter (fun n => !(dcontains defs n)) ∧
    (∀ n, dcontains (names.foldl (udCopyStep defs) acc).1 n = true ↔
        (dcontains acc.1 n = true ∨ (n ∈ names ∧ dcontains defs n = true))) ∧
    (∀ n v, dlookup (names.foldl (udCopyStep defs) acc).1 n = some v →
        dlookup acc.1 n = some v ∨ dlookup defs n = some v) := by
  induction names generalizing acc with
  | nil => exact ⟨by simp, by simp, fun n v h => Or.inl h⟩
  | cons m rest ih =>
      rw [List.foldl_cons]
      cases hm : dlookup defs m with
      | none =>
          have hstep : udCopyStep defs acc m = (acc.1, acc.2 ++ [m]) := by
            simp [udCopyStep, hm]
          rw [hstep]
          have hmc : dcontains defs m = false := by simp [dcontains, hm]
          obtain ⟨ih1, ih2, ih3⟩ := ih (acc.1, acc.2 ++ [m])
          refine ⟨?_, ?_, ?_⟩
          · rw [ih1]
            simp [List.filter_cons, hmc]
          · intro n
            rw [ih2 n]
            constructor
            · rintro (h | ⟨hn, hd⟩)
              · exact Or.inl h
              · exact Or.inr ⟨List.mem_cons_of_mem m hn, hd⟩
            · rintro (h | ⟨hn, hd⟩)
              · exact Or.inl h
              · rcases List.mem_cons.mp hn with hn | hn
                · subst hn; rw [hmc] at hd; cases hd
                · exact Or.inr ⟨hn, hd⟩
          · exact ih3
      | some v =>
          have hstep : udCopyStep defs acc m = (dinsert acc.1 m v, acc.2) := by
            simp [udCopyStep, hm]
          rw [hstep]
          have hmc : dcontains defs m = true := by simp [dcontains, hm]
          obtain ⟨ih1, ih2, ih3⟩ := ih (dinsert acc.1 m v, acc.2)
          refine ⟨?_, ?_, ?_⟩
          · rw [ih1]
            simp [List.filter_cons, hmc]
          · intro n
            rw [ih2 n]
            have hdc : dcontains (dinsert acc.1 m v) n =
                if n = m then true else dcontains acc.1 n := by
              unfold dcontains
              rw [dlookup_dinsert]
              by_cases hnm : n = m <;> simp [hnm]
            constructor
            · rintro (h | ⟨hn, hd⟩)
              · rw [hdc] at h
                by_cases hnm : n = m
                · subst hnm
                  exact Or.inr ⟨List.mem_cons_self n rest, hmc⟩
                · rw [if_neg hnm] at h
                  exact Or.inl h
              · exact Or.inr ⟨List.mem_cons_of_mem m hn, hd⟩
            · rintro (h | ⟨hn, hd⟩)
              · rw [hdc]
                by_cases hnm : n = m <;> simp [hnm, h]
              · rcases List.mem_cons.mp hn with hn | hn
                · subst hn
                  rw [hdc]
                  simp
                · exact Or.inr ⟨hn, hd⟩
          · intro n w hw
            rcases ih3 n w hw with h | h
            · rw [dlookup_dinsert] at h
              by_cases hnm : n = m
              · subst hnm
                rw [if_pos rfl] at h
                cases h
                exact Or.inr hm
              · rw [if_neg hnm] at h
                exact Or.inl h
            · exact Or.inr h

/-- C8: when a file-backed import requests names of which only a subset
exists in the executed file, the load succeeds, the loaded dict holds
exactly the requested names that exist (with the file's values), and
each missing name only joins the diagnostic list (core.py lines 89-96). -/
theorem C8_partial_success (env : String → Option (List (String × Nat)))
    (st : UDState) (defs : List (String × Nat))
    (henv : env st.ghost.file_path = some defs)
    (hempty : st.ghost.loadedD = []) :
    ∃ L, udLoad env st =
        (Except.ok L, ⟨{ st.ghost with loadedD := L }, st.execCount + 1⟩,
          st.ghost.file_imports.filter (fun n => !(dcontains defs n))) ∧
      (∀ n, dcontains L n = true ↔
          (n ∈ st.ghost.file_imports ∧ dcontains defs n = true)) ∧
      (∀ n v, dlookup L n = some v → dlookup defs n = some v) := by
  obtain ⟨h1, h2, h3⟩ := udCopyFold_char defs st.ghost.file_imports ([], [])
  refine ⟨(st.ghost.file_imports.foldl (udCopyStep defs) ([], [])).1, ?_, ?_, ?_⟩
  · unfold udLoad
    rw [hempty]
    simp only [ne_eq, not_true_eq_false, if_false, henv]
    rw [Prod.mk.injEq, Prod.mk.injEq]
    exact ⟨rfl, rfl, by rw [h1]; simp⟩
  · intro n
    rw [h2 n]
    simp [dcontains, dlookup]
  · intro n v hv
    rcases h3 n v hv with h | h
    · simp [dlookup] at h
    · exact h

/-- Witness for C8 at the spec's example: requesting `["a","missing","b"]`
from a file defining `a`, `b`, `c` loads exactly `a` and `b` and
diagnoses `missing`. -/
theorem C8_partial_success_witness :
    ∃ L, udLoad fixEnvABC fixUDPartial =
        (Except.ok L,
          ⟨{ fixUDPartial.ghost with loadedD := L }, fixUDPartial.execCount + 1⟩,
          fixUDPartial.ghost.file_imports.filter
            (fun n => !(dcontains [("a", 1), ("b", 2), ("c", 3)] n))) ∧
      (∀ n, dcontains L n = true ↔
          (n ∈ fixUDPartial.ghost.file_imports ∧
            dcontains [("a", 1), ("b", 2), ("c", 3)] n = true)) ∧
      (∀ n v, dlookup L n = some v →
          dlookup [("a", 1), ("b", 2), ("c", 3)] n = some v) :=
  C8_partial_success fixEnvABC fixUDPartial [("a", 1), ("b", 2), ("c", 3)] rfl rfl

/-- C7 fails on the code: the memoization guard of
`UserDefinedGhost._load` is `if not self._loaded:` (core.py line 79),
dict truthiness, so when no requested name exists in the file the
memoized dict stays empty and every attribute access re-executes the
file.  Two accesses on a proxy requesting only `missing` from a file
defining only `a` execute the file twice. -/
theorem C7_counterexample :
    (udGetattr fixEnvA fixUDMissing "missing").2.execCount = 1 ∧
    (udGetattr fixEnvA (udGetattr fixEnvA fixUDMissing "missing").2
        "missing").2.execCount = 2 :=
  ⟨rfl, rfl⟩

/-- C7 amended: provided the first load finds at least one requested
name (the memoized dict becomes non-empty), the file is never executed
again: every later load request is a no-op returning the memoized dict,
and attribute access by a known name returns the memoized value with
unchanged state. -/
theorem C7_amended (env : String → Option (List (String × Nat)))
    (st st' : UDState) (L : List (String × Nat)) (M : List String)
    (h1 : udLoad env st = (Except.ok L, st', M)) (h2 : L ≠ []) :
    st'.ghost.loadedD = L ∧
    udLoad env st' = (Except.ok L, st', []) ∧
    st'.execCount ≤ st.execCount + 1 ∧
    (∀ name v, dlookup L name = some v →
        udGetattr env st' name = (Except.ok v, st')) := by
  have hload : st'.ghost.loadedD = L ∧ st'.execCount ≤ st.execCount + 1 := by
    unfold udLoad at h1
    by_cases hne : st.ghost.loadedD = []
    · rw [if_neg (by simp [hne])] at h1
      cases henv : env st.ghost.file_path with
      | none => rw [henv] at h1; simp at h1
      | some defs =>
          rw [henv] at h1
          simp only [Prod.mk.injEq] at h1
          obtain ⟨hL, hst, _⟩ := h1
          cases hL
          rw [← hst]
          exact ⟨rfl, Nat.le_refl _⟩
    · rw [if_pos hne] at h1
      simp only [Prod.mk.injEq] at h1
      obtain ⟨hL, hst, _⟩ := h1
      cases hL
      rw [← hst]
      exact ⟨rfl, Nat.le_succ _⟩
  have hmem : st'.ghost.loadedD ≠ [] := by rw [hload.1]; exact h2
  have hsecond : udLoad env st' = (Except.ok L, st', []) := by
    unfold udLoad
    rw [if_pos hmem, hload.1]
  refine ⟨hload.1, hsecond, hload.2, ?_⟩
  intro name v hv
  unfold udGetattr
  rw [hsecond]
  simp [hv]

/-- Witness for C7 amended: after the first (partial-success) load of
the `fixUDPartial` proxy, a second load is a no-op and `.a` returns the
memoized value. -/
theorem C7_amended_witness :
    udLoad fixEnvABC
        (⟨⟨"u", "g.py", ["a", "missing", "b"], [("a", 1), ("b", 2)]⟩, 1⟩ : UDState) =
      (Except.ok [("a", 1), ("b", 2)],
        (⟨⟨"u", "g.py", ["a", "missing", "b"], [("a", 1), ("b", 2)]⟩, 1⟩ : UDState),
        []) ∧
    udGetattr fixEnvABC
        (⟨⟨"u", "g.py", ["a", "missing", "b"], [("a", 1), ("b", 2)]⟩, 1⟩ : UDState) "a" =
      (Except.ok 1,
        (⟨⟨"u", "g.py", ["a", "missing", "b"], [("a", 1), ("b", 2)]⟩, 1⟩ : UDState)) := by
  have h := C7_amended fixEnvABC fixUDPartial
    (⟨⟨"u", "g.py", ["a", "missing", "b"], [("a", 1), ("b", 2)]⟩, 1⟩ : UDState)
    [("a", 1), ("b", 2)] ["missing"] rfl (by decide)
  exact ⟨h.2.1, h.2.2.2 "a" 1 (by decide)⟩

theorem get?_set_of_get? {α : Type} (l : List α) (i : Nat) (a b : α)
    (h : l.get? i = some b) : (l.set i a).get? i = some a := by
  induction l generalizing i with
  | nil => simp [List.get?] at h
  | cons x xs ih =>
      cases i with
      | zero => rfl
      | succ n =>
          simp only [List.set_cons_succ, List.get?_cons_succ] at h ⊢
          exact ih n h

theorem loadGhost_loaded (r : Registry) (imp : String → Bool) (w : World)
    (g : Nat) (gi : GhostInfo) (m : String)
    (hg : w.ghosts.get? g = some gi) (hm : gi.loadedM = some m) :
    loadGhost r imp w g = Except.ok (Value.modVal m, w) := by
  have hg' : w.ghosts[g]? = some gi := by
    rw [← List.get?_eq_getElem?]; exact hg
  simp [loadGhost, hg', hm]

theorem loadGhost_unloaded (r : Registry) (imp : String → Bool) (w : World)
    (g : Nat) (gi : GhostInfo)
    (hg : w.ghosts.get? g = some gi) (hnl : gi.loadedM = none)
    (himp : imp gi.module_name = true) :
    loadGhost r imp w g = Except.ok (Value.modVal gi.module_name,
      ⟨replaceBindings gi.module_name (Value.modVal gi.module_name) (mergedOf r) w.ns,
       w.ghosts.set g { gi with loadedM := some gi.module_name },
       w.uds, w.impCount + 1⟩) := by
  have hg' : w.ghosts[g]? = some gi := by
    rw [← List.get?_eq_getElem?]; exact hg
  simp [loadGhost, hg', hnl, himp, mergedOf]

theorem loadIter_loaded (r : Registry) (imp : String → Bool) (g : Nat) (n : Nat)
    (w : World) (gi : GhostInfo) (m : String)
    (hg : w.ghosts.get? g = some gi) (hm : gi.loadedM = some m) :
    loadIter r imp g n w = w := by
  induction n with
  | zero => rfl
  | succ k ih =>
      have hstep : loadStepW r imp g w = w := by
        unfold loadStepW
        rw [loadGhost_loaded r imp w g gi m hg hm]
      show loadIter r imp g k (loadStepW r imp g w) = w
      rw [hstep, ih]

/-- C2: the underlying import runs exactly once per proxy.  From an
unloaded proxy whose import succeeds, any number `n ≥ 1` of attribute
accesses increments the `import_module` counter by exactly one, and
every load after the first is a no-op returning the memoized module
(core.py lines 19-47: the `if self._module is None` guard). -/
theorem C2_load_once (r : Registry) (imp : String → Bool) (w : World)
    (g : Nat) (gi : GhostInfo)
    (hg : w.ghosts.get? g = some gi) (hnl : gi.loadedM = none)
    (himp : imp gi.module_name = true) (n : Nat) (hn : 1 ≤ n) :
    (loadIter r imp g n w).impCount = w.impCount + 1 ∧
    loadGhost r imp (loadStepW r imp g w) g =
      Except.ok (Value.modVal gi.module_name, loadStepW r imp g w) := by
  have hfirst : loadStepW r imp g w =
      ⟨replaceBindings gi.module_name (Value.modVal gi.module_name) (mergedOf r) w.ns,
       w.ghosts.set g { gi with loadedM := some gi.module_name },
       w.uds, w.impCount + 1⟩ := by
    unfold loadStepW
    rw [loadGhost_unloaded r imp w g gi hg hnl himp]
  have hg1 : (loadStepW r imp g w).ghosts.get? g =
      some { gi with loadedM := some gi.module_name } := by
    rw [hfirst]
    exact get?_set_of_get? w.ghosts g _ gi hg
  constructor
  · obtain ⟨k, rfl⟩ : ∃ k, n = k + 1 := ⟨n - 1, by omega⟩
    show (loadIter r imp g k (loadStepW r imp g w)).impCount = w.impCount + 1
    rw [loadIter_loaded r imp g k _ _ gi.module_name hg1 rfl, hfirst]
  · exact loadGhost_loaded r imp _ g _ gi.module_name hg1 rfl

/-- Witness for C2: three accesses to the `plt` proxy of the activated
`fixPlt` world import once, and the second load is a memoized no-op. -/
theorem C2_load_once_witness :
    (loadIter fixPlt impAll 0 3 fixPltWorld).impCount = fixPltWorld.impCount + 1 ∧
    loadGhost fixPlt impAll (loadStepW fixPlt impAll 0 fixPltWorld) 0 =
      Except.ok (Value.modVal "matplotlib.pyplot", loadStepW fixPlt impAll 0 fixPltWorld) :=
  C2_load_once fixPlt impAll fixPltWorld 0
    ⟨"matplotlib.pyplot", "plt", "matplotlib.pyplot", none⟩ rfl rfl rfl 3 (by decide)

theorem dlookup_not_mem_keys {β : Type} (d : List (String × β)) (k : String)
    (h : k ∉ d.map Prod.fst) : dlookup d k = none := by
  induction d with
  | nil => rfl
  | cons e rest ih =>
      obtain ⟨a, v⟩ := e
      rw [List.map_cons, List.mem_cons] at h
      push_neg at h
      rw [dlookup_cons, if_neg (fun hh => h.1 hh.symm)]
      exact ih h.2

theorem replaceBindings_lookup (t : String) (m : Value)
    (merged : List (String × String)) (hnd : NoDupKeys merged)
    (ns : List (String × Value)) (k : String) :
    dlookup (replaceBindings t m merged ns) k =
      if dlookup merged k = some t ∧ isGhostVal (dlookup ns k) = true
      then some m else dlookup ns k := by
  induction merged generalizing ns with
  | nil => simp [replaceBindings, dlookup]
  | cons e rest ih =>
      obtain ⟨a, p⟩ := e
      unfold NoDupKeys at hnd
      rw [List.map_cons, List.nodup_cons] at hnd
      have hrest : NoDupKeys rest := hnd.2
      show dlookup (replaceBindings t m rest _) k = _
      rw [ih hrest]
      by_cases hak : a = k
      · subst hak
        have hrk : dlookup rest a = none := dlookup_not_mem_keys rest a hnd.1
        rw [hrk]
        rw [dlookup_cons, if_pos rfl]
        by_cases hp : p = t
        · subst hp
          by_cases hgv : isGhostVal (dlookup ns a) = true
          · simp only [if_pos rfl, hgv, if_true]
            rw [dlookup_dinsert_self]
            simp [hgv]
          · have hgv' : isGhostVal (dlookup ns a) = false := by
              cases hq : isGhostVal (dlookup ns a)
              · rfl
              · exact absurd hq hgv
            simp [hgv']
        · simp [hp, fun hh : some p = some t => hp (Option.some.injEq p t ▸ hh)]
      · rw [dlookup_cons, if_neg hak]
        have hns1 : dlookup (if p = t then
            if isGhostVal (dlookup ns a) = true then dinsert ns a m else ns
          else ns) k = dlookup ns k := by
          by_cases hp : p = t
          · by_cases hgv : isGhostVal (dlookup ns a) = true
            · simp only [hp, if_pos rfl, hgv, if_true]
              exact dlookup_dinsert_ne ns a k m (fun hh => hak hh.symm)
            · simp [hp, hgv]
          · simp [hp]
        rw [hns1]

/-- C1 fails on the code.  Activating `{"plt": "matplotlib.pyplot"}` on
an empty namespace binds both `plt` and the trailing segment `pyplot` to
the same proxy instance (index 0).  A successful load through the proxy
(core.py lines 26-41) rewrites only keys that are aliases in the merged
table: afterwards `plt` holds the module but `pyplot` — a binding whose
value is the very same proxy instance — still holds the proxy, so not
every binding holding this instance is overwritten. -/
theorem C1_counterexample :
    dlookup fixPltWorld.ns "plt" = some (Value.ghost 0) ∧
    dlookup fixPltWorld.ns "pyplot" = some (Value.ghost 0) ∧
    (loadStepW fixPlt impAll 0 fixPltWorld).impCount = fixPltWorld.impCount + 1 ∧
    dlookup (loadStepW fixPlt impAll 0 fixPltWorld).ns "pyplot" =
      some (Value.ghost 0) ∧
    decide (Value.ghost 0 = Value.modVal "matplotlib.pyplot") = false :=
  ⟨rfl, rfl, rfl, rfl, rfl⟩

/-- C1 amended: after a successful first load, exactly those bindings
are overwritten with the concrete module whose *key* is an alias mapping
to this target in the merged builtin+userAdded table and whose current
value is any `GhostModule` proxy (an `isinstance` test, not an identity
comparison); every other binding — including the trailing-path-segment
binding added by activation when that segment is not itself an alias —
keeps its previous value. -/
theorem C1_amended (r : Registry) (imp : String → Bool) (w : World) (g : Nat)
    (gi : GhostInfo) (hg : w.ghosts.get? g = some gi) (hnl : gi.loadedM = none)
    (himp : imp gi.module_name = true) (hnd : NoDupKeys (mergedOf r)) :
    loadGhost r imp w g =
      Except.ok (Value.modVal gi.module_name, loadStepW r imp g w) ∧
    ∀ k, dlookup (loadStepW r imp g w).ns k =
      if dlookup (mergedOf r) k = some gi.module_name ∧
          isGhostVal (dlookup w.ns k) = true
      then some (Value.modVal gi.module_name) else dlookup w.ns k := by
  have hfirst := loadGhost_unloaded r imp w g gi hg hnl himp
  have hstep : loadStepW r imp g w =
      ⟨replaceBindings gi.module_name (Value.modVal gi.module_name) (mergedOf r) w.ns,
       w.ghosts.set g { gi with loadedM := some gi.module_name },
       w.uds, w.impCount + 1⟩ := by
    unfold loadStepW
    rw [hfirst]
  constructor
  · rw [hfirst, hstep]
  · intro k
    rw [hstep]
    exact replaceBindings_lookup gi.module_name (Value.modVal gi.module_name)
      (mergedOf r) hnd w.ns k

/-- Witness for C1 amended in the `fixPlt` scenario: the alias `plt` is
overwritten with the module, the non-alias binding `pyplot` keeps the
proxy. -/
theorem C1_amended_witness :
    dlookup (loadStepW fixPlt impAll 0 fixPltWorld).ns "plt" =
      some (Value.modVal "matplotlib.pyplot") ∧
    dlookup (loadStepW fixPlt impAll 0 fixPltWorld).ns "pyplot" =
      some (Value.ghost 0) := by
  have h := C1_amended fixPlt impAll fixPltWorld 0
    ⟨"matplotlib.pyplot", "plt", "matplotlib.pyplot", none⟩ rfl rfl rfl (by decide)
  constructor
  · rw [h.2 "plt", if_pos (by decide)]
  · rw [h.2 "pyplot", if_neg (by decide)]
    rfl

theorem groupStep_world (all : List (String × String)) (acc : World × List String)
    (e : String × List String) :
    (groupStep all acc e).1.ghosts =
        acc.1.ghosts ++ [(⟨e.1, minByLen e.2, e.1, none⟩ : GhostInfo)] ∧
    (groupStep all acc e).1.uds = acc.1.uds :=
  ⟨rfl, rfl⟩

theorem groupFold_ghosts (all : List (String × String))
    (l : List (String × List String)) (w : World) (ld : List String) :
    ((l.foldl (groupStep all) (w, ld)).1).ghosts =
      w.ghosts ++ l.map (fun e => (⟨e.1, minByLen e.2, e.1, none⟩ : GhostInfo)) ∧
    ((l.foldl (groupStep all) (w, ld)).1).uds = w.uds := by
  induction l generalizing w ld with
  | nil => simp
  | cons e rest ih =>
      rw [List.foldl_cons]
      obtain ⟨h1, h2⟩ := groupStep_world all (w, ld) e
      have hih := ih (groupStep all (w, ld) e).1 (groupStep all (w, ld) e).2
      rw [Prod.mk.eta] at hih
      rw [hih.1, hih.2, h1, h2]
      simp

theorem bindUserDefined_ghosts (entries : List (String × UDEntry))
    (acc : World × List String) :
    (bindUserDefined entries acc).1.ghosts = acc.1.ghosts := by
  unfold bindUserDefined
  induction entries generalizing acc with
  | nil => rfl
  | cons e rest ih =>
      rw [List.foldl_cons]
      rw [ih]
      dsimp only
      split <;> rfl

theorem activate_ghosts (r : Registry) (w : World)
    (custom : List (String × String)) (lud : Bool) :
    (activate r w custom lud).world.ghosts =
      w.ghosts ++ (m2aOf (regAfterCustom r custom)).map
        (fun e => (⟨e.1, minByLen e.2, e.1, none⟩ : GhostInfo)) := by
  unfold activate
  cases lud with
  | true =>
      simp only [if_true]
      rw [bindUserDefined_ghosts]
      exact (groupFold_ghosts _ _ w []).1
  | false =>
      simp only [if_false]
      exact (groupFold_ghosts _ _ w []).1

theorem minByLen_spec (as : List String) (h : as ≠ []) :
    ∃ l1 l2, as = l1 ++ minByLen as :: l2 ∧
      (∀ b ∈ l1, (minByLen as).length < b.length) ∧
      (∀ b ∈ l2, (minByLen as).length ≤ b.length) := by
  induction as with
  | nil => exact absurd rfl h
  | cons a rest ih =>
      cases rest with
      | nil => exact ⟨[], [], rfl, by simp, by simp⟩
      | cons b rest2 =>
          obtain ⟨l1, l2, hdec, hl1, hl2⟩ := ih (by simp)
          have hm : minByLen (a :: b :: rest2) =
              if a.length ≤ (minByLen (b :: rest2)).length then a
              else minByLen (b :: rest2) := rfl
          by_cases hle : a.length ≤ (minByLen (b :: rest2)).length
          · rw [hm, if_pos hle]
            refine ⟨[], b :: rest2, rfl, by simp, ?_⟩
            intro x hx
            rw [hdec, List.mem_append, List.mem_cons] at hx
            rcases hx with hx | hx | hx
            · exact Nat.le_trans hle (Nat.le_of_lt (hl1 x hx))
            · subst hx; exact hle
            · exact Nat.le_trans hle (hl2 x hx)
          · rw [hm, if_neg hle]
            refine ⟨a :: l1, l2, ?_, ?_, hl2⟩
            · rw [List.cons_append, ← hdec]
            · intro x hx
              rcases List.mem_cons.mp hx with hx | hx
              · rw [hx]; exact Nat.lt_of_not_le hle
              · exact hl1 x hx

/-- C5 fails on the code.  With builtin table `{"b": "m", "a": "m"}`
(insertion order `b` then `a`), activation chooses `min(aliases, key=len)`
(core.py line 172): both aliases have length 1, so the *first in
insertion order*, `b`, becomes the display alias — although `a` is the
lexicographically smaller alias of the group. -/
theorem C5_counterexample :
    (activate fixTie emptyWorld [] true).world.ghosts.get? 0 =
      some ⟨"m", "b", "m", none⟩ ∧
    dlookup (mergedOf fixTie) "a" = some "m" ∧
    dlookup (mergedOf fixTie) "b" = some "m" ∧
    lexLess "a" "b" = true ∧
    decide (("b" : String) = "a") = false :=
  ⟨rfl, rfl, rfl, rfl, rfl⟩

/-- C5 amended: the display alias chosen for each group is an alias of
the group of *minimal length*, the first such alias in the group's
insertion order (Python `min(aliases, key=len)` — not lexicographic
order). -/
theorem C5_amended (r : Registry) (w : World) (custom : List (String × String))
    (lud : Bool) (i : Nat) (pa : String × List String)
    (hi : (m2aOf (regAfterCustom r custom)).get? i = some pa) (hne : pa.2 ≠ []) :
    ∃ gi, (activate r w custom lud).world.ghosts.get? (w.ghosts.length + i) =
        some gi ∧
      gi.module_name = pa.1 ∧
      gi.display ∈ pa.2 ∧
      (∀ b ∈ pa.2, gi.display.length ≤ b.length) ∧
      ∃ l1 l2, pa.2 = l1 ++ gi.display :: l2 ∧
        ∀ b ∈ l1, gi.display.length < b.length := by
  have hget : (activate r w custom lud).world.ghosts.get? (w.ghosts.length + i) =
      some ⟨pa.1, minByLen pa.2, pa.1, none⟩ := by
    rw [activate_ghosts]
    rw [List.get?_append_right (Nat.le_add_right _ _)]
    rw [Nat.add_sub_cancel_left]
    rw [List.get?_map, hi]
    rfl
  obtain ⟨l1, l2, hdec, hl1, hl2⟩ := minByLen_spec pa.2 hne
  refine ⟨⟨pa.1, minByLen pa.2, pa.1, none⟩, hget, rfl, ?_, ?_, l1, l2, hdec, hl1⟩
  · have hmem : minByLen pa.2 ∈ l1 ++ minByLen pa.2 :: l2 :=
      List.mem_append_right l1 (List.mem_cons_self _ _)
    rw [← hdec] at hmem
    exact hmem
  · intro b hb
    rw [hdec] at hb
    rw [List.mem_append, List.mem_cons] at hb
    rcases hb with hb | hb | hb
    · exact Nat.le_of_lt (hl1 b hb)
    · subst hb; exact Nat.le_refl _
    · exact hl2 b hb

/-- Witness for C5 amended in the `fixTie` scenario. -/
theorem C5_amended_witness :
    ∃ gi, (activate fixTie emptyWorld [] true).world.ghosts.get?
        (emptyWorld.ghosts.length + 0) = some gi ∧
      gi.module_name = "m" ∧
      gi.display ∈ ["b", "a"] ∧
      (∀ b ∈ ["b", "a"], gi.display.length ≤ b.length) ∧
      ∃ l1 l2, ["b", "a"] = l1 ++ gi.display :: l2 ∧
        ∀ b ∈ l1, gi.display.length < b.length :=
  C5_amended fixTie emptyWorld [] true 0 ("m", ["b", "a"]) rfl (by decide)

theorem dcontains_iff {β : Type} (d : List (String × β)) (k : String) :
    dcontains d k = true ↔ ∃ v, dlookup d k = some v := by
  unfold dcontains
  cases h : dlookup d k <;> simp [h]

theorem dlookup_mem {β : Type} (d : List (String × β)) (k : String) (v : β)
    (h : dlookup d k = some v) : (k, v) ∈ d := by
  induction d with
  | nil => simp [dlookup] at h
  | cons e rest ih =>
      obtain ⟨a, w⟩ := e
      rw [dlookup_cons] at h
      by_cases hak : a = k
      · subst hak
        rw [if_pos rfl] at h
        cases h
        exact List.mem_cons_self _ _
      · rw [if_neg hak] at h
        exact List.mem_cons_of_mem _ (ih h)

theorem noDupKeys_buildReverse (l : List (String × String)) :
    NoDupKeys (buildReverse l) := by
  unfold buildReverse
  have hgen : ∀ m : List (String × List String), NoDupKeys m →
      NoDupKeys (l.foldl (fun m e =>
        match dlookup m e.2 with
        | some l0 => dinsert m e.2 (l0 ++ [e.1])
        | none => dinsert m e.2 [e.1]) m) := by
    induction l with
    | nil => intro m hm; exact hm
    | cons e rest ih =>
        intro m hm
        rw [List.foldl_cons]
        apply ih
        cases hq : dlookup m e.2 with
        | some l0 => simp only [hq]; exact noDupKeys_dinsert m e.2 (l0 ++ [e.1]) hm
        | none => simp only [hq]; exact noDupKeys_dinsert m e.2 [e.1] hm
  exact hgen [] (by simp [NoDupKeys])

theorem buildReverse_sound (allT : List (String × String))
    (l : List (String × String))
    (hmem : ∀ e ∈ l, dlookup allT e.1 = some e.2) :
    ∀ m : List (String × List String),
      (∀ p as, dlookup m p = some as → ∀ a ∈ as, dlookup allT a = some p) →
      ∀ p as, dlookup (l.foldl (fun m e =>
          match dlookup m e.2 with
          | some l0 => dinsert m e.2 (l0 ++ [e.1])
          | none => dinsert m e.2 [e.1]) m) p = some as →
        ∀ a ∈ as, dlookup allT a = some p := by
  induction l with
  | nil => intro m hinv p as h; exact hinv p as h
  | cons e rest ih =>
      intro m hinv p as h
      rw [List.foldl_cons] at h
      refine ih (fun x hx => hmem x (List.mem_cons_of_mem _ hx)) _ ?_ p as h
      intro q bs hq a ha
      have he : dlookup allT e.1 = some e.2 := hmem e (List.mem_cons_self _ _)
      cases hq0 : dlookup m e.2 with
      | some l0 =>
          simp only [hq0] at hq
          rw [dlookup_dinsert] at hq
          by_cases hqe : q = e.2
          · subst hqe
            rw [if_pos rfl] at hq
            cases hq
            rw [List.mem_append, List.mem_cons] at ha
            rcases ha with ha | ha | ha
            · exact hinv e.2 l0 hq0 a ha
            · subst ha; exact he
            · simp at ha
          · rw [if_neg hqe] at hq
            exact hinv q bs hq a ha
      | none =>
          simp only [hq0] at hq
          rw [dlookup_dinsert] at hq
          by_cases hqe : q = e.2
          · subst hqe
            rw [if_pos rfl] at hq
            cases hq
            rw [List.mem_singleton] at ha
            subst ha; exact he
          · rw [if_neg hqe] at hq
            exact hinv q bs hq a ha

theorem buildReverse_complete (l : List (String × String)) :
    ∀ e ∈ l, dcontains (buildReverse l) e.2 = true := by
  unfold buildReverse
  have hgen : ∀ m : List (String × List String),
      ∀ e ∈ l, dcontains (l.foldl (fun m e =>
        match dlookup m e.2 with
        | some l0 => dinsert m e.2 (l0 ++ [e.1])
        | none => dinsert m e.2 [e.1]) m) e.2 = true := by
    have hmono : ∀ (l2 : List (String × String)) (m : List (String × List String)) (k : String),
        dcontains m k = true → dcontains (l2.foldl (fun m e =>
          match dlookup m e.2 with
          | some l0 => dinsert m e.2 (l0 ++ [e.1])
          | none => dinsert m e.2 [e.1]) m) k = true := by
      intro l2
      induction l2 with
      | nil => intro m k h; exact h
      | cons e rest ih =>
          intro m k h
          rw [List.foldl_cons]
          apply ih
          cases hq : dlookup m e.2 with
          | some l0 => simp only [hq]; exact dcontains_dinsert_of m e.2 k _ h
          | none => simp only [hq]; exact dcontains_dinsert_of m e.2 k _ h
    induction l with
    | nil => intro m e he; simp at he
    | cons e0 rest ih =>
        intro m e he
        rw [List.foldl_cons]
        rcases List.mem_cons.mp he with he | he
        · subst he
          apply hmono rest
          cases hq : dlookup m e.2 with
          | some l0 =>
              simp only [hq]
              rw [dcontains_iff]
              exact ⟨_, dlookup_dinsert_self _ _ _⟩
          | none =>
              simp only [hq]
              rw [dcontains_iff]
              exact ⟨_, dlookup_dinsert_self _ _ _⟩
        · exact ih _ e he
  exact hgen []

theorem bindAliases_mono (gid : Nat) (as : List String)
    (acc : List (String × Value) × List String) (k : String) (v : Value)
    (h : dlookup acc.1 k = some v) :
    dlookup (bindAliases gid as acc).1 k = some v := by
  unfold bindAliases
  induction as generalizing acc with
  | nil => exact h
  | cons a rest ih =>
      rw [List.foldl_cons]
      apply ih
      by_cases hc : dcontains acc.1 a = true
      · rw [if_pos hc]; exact h
      · rw [if_neg hc]
        have hka : k ≠ a := by
          intro hka
          subst hka
          rw [dcontains_iff] at hc
          exact hc ⟨v, h⟩
        show dlookup (dinsert acc.1 a (Value.ghost gid)) k = some v
        rw [dlookup_dinsert_ne _ _ _ _ hka]
        exact h

theorem bindAliases_frame (gid : Nat) (as : List String)
    (acc : List (String × Value) × List String) (k : String) (h : k ∉ as) :
    dlookup (bindAliases gid as acc).1 k = dlookup acc.1 k := by
  unfold bindAliases
  induction as generalizing acc with
  | nil => rfl
  | cons a rest ih =>
      rw [List.mem_cons] at h
      push_neg at h
      rw [List.foldl_cons]
      rw [ih _ h.2]
      by_cases hc : dcontains acc.1 a = true
      · rw [if_pos hc]
      · rw [if_neg hc]
        show dlookup (dinsert acc.1 a (Value.ghost gid)) k = dlookup acc.1 k
        exact dlookup_dinsert_ne _ _ _ _ h.1

theorem bindAliases_binds (gid : Nat) (as : List String)
    (acc : List (String × Value) × List String) (a : String)
    (ha : a ∈ as) (h : dlookup acc.1 a = none) :
    dlookup (bindAliases gid as acc).1 a = some (Value.ghost gid) := by
  unfold bindAliases
  induction as generalizing acc with
  | nil => simp at ha
  | cons b rest ih =>
      rw [List.foldl_cons]
      by_cases hc : dcontains acc.1 b = true
      · rw [if_pos hc]
        rcases List.mem_cons.mp ha with hab | hab
        · subst hab
          rw [dcontains_iff] at hc
          obtain ⟨v, hv⟩ := hc
          rw [hv] at h
          cases h
        · exact ih _ hab h
      · rw [if_neg hc]
        by_cases hab : a = b
        · subst hab
          exact bindAliases_mono gid rest _ a _ (dlookup_dinsert_self _ _ _)
        · rcases List.mem_cons.mp ha with hab2 | hab2
          · exact absurd hab2 hab
          · refine ih _ hab2 ?_
            show dlookup (dinsert acc.1 b (Value.ghost gid)) a = none
            rw [dlookup_dinsert_ne _ _ _ _ hab]
            exact h

theorem bindAliases_present (gid : Nat) (as : List String)
    (acc : List (String × Value) × List String) (a : String) (ha : a ∈ as) :
    dcontains (bindAliases gid as acc).1 a = true := by
  cases h : dlookup acc.1 a with
  | none =>
      rw [dcontains_iff]
      exact ⟨_, bindAliases_binds gid as acc a ha h⟩
  | some v =>
      rw [dcontains_iff]
      exact ⟨v, bindAliases_mono gid as acc a v h⟩

theorem bindAliases_noop (gid : Nat) (as : List String)
    (acc : List (String × Value) × List String)
    (h : ∀ a ∈ as, dcontains acc.1 a = true) :
    bindAliases gid as acc = acc := by
  unfold bindAliases
  induction as generalizing acc with
  | nil => rfl
  | cons a rest ih =>
      rw [List.foldl_cons]
      rw [if_pos (h a (List.mem_cons_self _ _))]
      exact ih acc (fun b hb => h b (List.mem_cons_of_mem _ hb))

theorem bindBase_mono (gid : Nat) (path : String) (all : List (String × String))
    (acc : List (String × Value) × List String) (k : String) (v : Value)
    (h : dlookup acc.1 k = some v) :
    dlookup (bindBase gid path all acc).1 k = some v := by
  unfold bindBase
  dsimp only
  split
  · next hcond =>
      have hk : k ≠ lastSegment path := by
        intro hke
        have hcc : dcontains acc.1 (lastSegment path) = true := by
          rw [dcontains_iff]
          exact ⟨v, hke ▸ h⟩
        rw [hcond.2] at hcc
        cases hcc
      show dlookup (dinsert acc.1 (lastSegment path) (Value.ghost gid)) k = some v
      rw [dlookup_dinsert_ne _ _ _ _ hk]
      exact h
  · exact h

theorem bindBase_frame_allkey (gid : Nat) (path : String)
    (all : List (String × String)) (acc : List (String × Value) × List String)
    (k : String) (hk : dcontains all k = true) :
    dlookup (bindBase gid path all acc).1 k = dlookup acc.1 k := by
  unfold bindBase
  dsimp only
  split
  · next hcond =>
      have hne : k ≠ lastSegment path := by
        intro hke
        rw [hke, hcond.1] at hk
        cases hk
      show dlookup (dinsert acc.1 (lastSegment path) (Value.ghost gid)) k = _
      exact dlookup_dinsert_ne _ _ _ _ hne
  · rfl

theorem bindBase_post (gid : Nat) (path : String) (all : List (String × String))
    (acc : List (String × Value) × List String) :
    dcontains all (lastSegment path) = true ∨
    dcontains (bindBase gid path all acc).1 (lastSegment path) = true := by
  unfold bindBase
  dsimp only
  by_cases h1 : dcontains all (lastSegment path) = true
  · exact Or.inl h1
  · by_cases h2 : dcontains acc.1 (lastSegment path) = true
    · right
      rw [if_neg]
      · exact h2
      · rintro ⟨_, hc2⟩
        rw [h2] at hc2
        cases hc2
    · right
      have h1' : dcontains all (lastSegment path) = false := by
        cases hq : dcontains all (lastSegment path)
        · rfl
        · exact absurd hq h1
      have h2' : dcontains acc.1 (lastSegment path) = false := by
        cases hq : dcontains acc.1 (lastSegment path)
        · rfl
        · exact absurd hq h2
      rw [if_pos ⟨h1', h2'⟩]
      show dcontains (dinsert acc.1 (lastSegment path) (Value.ghost gid)) _ = true
      rw [dcontains_iff]
      exact ⟨_, dlookup_dinsert_self _ _ _⟩

theorem bindBase_noop (gid : Nat) (path : String) (all : List (String × String))
    (acc : List (String × Value) × List String)
    (h : dcontains all (lastSegment path) = true ∨
        dcontains acc.1 (lastSegment path) = true) :
    bindBase gid path all acc = acc := by
  unfold bindBase
  dsimp only
  rw [if_neg]
  rintro ⟨h1, h2⟩
  rcases h with h | h
  · rw [h1] at h; cases h
  · rw [h2] at h; cases h

theorem groupStep_ns (all : List (String × String)) (acc : World × List String)
    (e : String × List String) :
    (groupStep all acc e).1.ns =
      (bindBase acc.1.ghosts.length e.1 all
        (bindAliases acc.1.ghosts.length e.2 (acc.1.ns, acc.2))).1 ∧
    (groupStep all acc e).2 =
      (bindBase acc.1.ghosts.length e.1 all
        (bindAliases acc.1.ghosts.length e.2 (acc.1.ns, acc.2))).2 :=
  ⟨rfl, rfl⟩

theorem groupStep_mono (all : List (String × String)) (acc : World × List String)
    (e : String × List String) (k : String) (v : Value)
    (h : dlookup acc.1.ns k = some v) :
    dlookup (groupStep all acc e).1.ns k = some v := by
  rw [(groupStep_ns all acc e).1]
  exact bindBase_mono _ _ _ _ _ _ (bindAliases_mono _ _ _ _ _ h)

theorem groupStep_frame (all : List (String × String)) (acc : World × List String)
    (e : String × List String) (k : String)
    (hk : dcontains all k = true) (hna : k ∉ e.2) :
    dlookup (groupStep all acc e).1.ns k = dlookup acc.1.ns k := by
  rw [(groupStep_ns all acc e).1]
  rw [bindBase_frame_allkey _ _ _ _ _ hk]
  exact bindAliases_frame _ _ _ _ hna

theorem groupStep_binds (all : List (String × String)) (acc : World × List String)
    (e : String × List String) (a : String)
    (ha : a ∈ e.2) (hn : dlookup acc.1.ns a = none) (hk : dcontains all a = true) :
    dlookup (groupStep all acc e).1.ns a =
      some (Value.ghost acc.1.ghosts.length) := by
  rw [(groupStep_ns all acc e).1]
  rw [bindBase_frame_allkey _ _ _ _ _ hk]
  exact bindAliases_binds _ _ _ _ ha hn

theorem groupStep_present (all : List (String × String)) (acc : World × List String)
    (e : String × List String) (a : String) (ha : a ∈ e.2) :
    dcontains (groupStep all acc e).1.ns a = true := by
  rw [(groupStep_ns all acc e).1]
  have h := bindAliases_present acc.1.ghosts.length e.2 (acc.1.ns, acc.2) a ha
  rw [dcontains_iff] at h ⊢
  obtain ⟨v, hv⟩ := h
  exact ⟨v, bindBase_mono _ _ _ _ _ _ hv⟩

theorem groupStep_noop (all : List (String × String)) (acc : World × List String)
    (e : String × List String)
    (h1 : ∀ a ∈ e.2, dcontains acc.1.ns a = true)
    (h2 : dcontains all (lastSegment e.1) = true ∨
        dcontains acc.1.ns (lastSegment e.1) = true) :
    (groupStep all acc e).1.ns = acc.1.ns ∧ (groupStep all acc e).2 = acc.2 := by
  obtain ⟨hn, hl⟩ := groupStep_ns all acc e
  rw [bindAliases_noop _ _ _ h1] at hn hl
  rw [bindBase_noop _ _ _ _ h2] at hn hl
  exact ⟨hn, hl⟩

theorem groupFold_mono (all : List (String × String))
    (l : List (String × List String)) (acc : World × List String)
    (k : String) (v : Value) (h : dlookup acc.1.ns k = some v) :
    dlookup ((l.foldl (groupStep all) acc).1).ns k = some v := by
  induction l generalizing acc with
  | nil => exact h
  | cons e rest ih =>
      rw [List.foldl_cons]
      exact ih _ (groupStep_mono all acc e k v h)

theorem groupFold_contains (all : List (String × String))
    (l : List (String × List String)) (acc : World × List String)
    (k : String) (h : dcontains acc.1.ns k = true) :
    dcontains ((l.foldl (groupStep all) acc).1).ns k = true := by
  rw [dcontains_iff] at h ⊢
  obtain ⟨v, hv⟩ := h
  exact ⟨v, groupFold_mono all l acc k v hv⟩

theorem groupFold_binds (all : List (String × String))
    (l : List (String × List String)) (acc : World × List String)
    (hl : ∀ pa ∈ l, ∀ a ∈ pa.2, dlookup all a = some pa.1)
    (hlnd : NoDupKeys l) :
    ∀ i pa, l.get? i = some pa → ∀ a ∈ pa.2, dlookup acc.1.ns a = none →
      dlookup ((l.foldl (groupStep all) acc).1).ns a =
        some (Value.ghost (acc.1.ghosts.length + i)) := by
  induction l generalizing acc with
  | nil => intro i pa h; simp [List.get?] at h
  | cons e rest ih =>
      intro i pa hget a ha hnone
      rw [List.foldl_cons]
      cases i with
      | zero =>
          rw [List.get?_cons_zero] at hget
          cases hget
          have hk : dcontains all a = true := by
            rw [dcontains_iff]
            exact ⟨_, hl e (List.mem_cons_self _ _) a ha⟩
          have hbound := groupStep_binds all acc e a ha hnone hk
          rw [Nat.add_zero]
          exact groupFold_mono all rest _ a _ hbound
      | succ n =>
          rw [List.get?_cons_succ] at hget
          have hpa_mem : pa ∈ rest := List.get?_mem hget
          have hpal : dlookup all a = some pa.1 :=
            hl pa (List.mem_cons_of_mem _ hpa_mem) a ha
          have hk : dcontains all a = true := by
            rw [dcontains_iff]; exact ⟨_, hpal⟩
          have hane : a ∉ e.2 := by
            intro hae
            have h1 : dlookup all a = some e.1 := hl e (List.mem_cons_self _ _) a hae
            have heq : e.1 = pa.1 := by
              rw [h1] at hpal
              exact Option.some_injective _ hpal
            unfold NoDupKeys at hlnd
            rw [List.map_cons, List.nodup_cons] at hlnd
            exact hlnd.1 (heq ▸ List.mem_map_of_mem Prod.fst hpa_mem)
          have hstill : dlookup (groupStep all acc e).1.ns a = none := by
            rw [groupStep_frame all acc e a hk hane]
            exact hnone
          have hlrest : ∀ pb ∈ rest, ∀ b ∈ pb.2, dlookup all b = some pb.1 :=
            fun pb hpb => hl pb (List.mem_cons_of_mem _ hpb)
          have hndrest : NoDupKeys rest := by
            unfold NoDupKeys at hlnd ⊢
            rw [List.map_cons, List.nodup_cons] at hlnd
            exact hlnd.2
          have hrec := ih (groupStep all acc e) hlrest hndrest n pa hget a ha hstill
          have hgl : (groupStep all acc e).1.ghosts.length =
              acc.1.ghosts.length + 1 := by
            rw [(groupStep_world all acc e).1]
            simp
          rw [hgl] at hrec
          have harith : acc.1.ghosts.length + 1 + n =
              acc.1.ghosts.length + (n + 1) := by omega
          rw [harith] at hrec
          exact hrec

theorem groupFold_present (all : List (String × String))
    (l : List (String × List String)) (acc : World × List String) :
    ∀ pa ∈ l, ∀ a ∈ pa.2,
      dcontains ((l.foldl (groupStep all) acc).1).ns a = true := by
  induction l generalizing acc with
  | nil => intro pa hpa; simp at hpa
  | cons e rest ih =>
      intro pa hpa a ha
      rw [List.foldl_cons]
      rcases List.mem_cons.mp hpa with hpa | hpa
      · subst hpa
        exact groupFold_contains all rest _ a (groupStep_present all acc pa a ha)
      · exact ih _ pa hpa a ha

theorem groupFold_base_post (all : List (String × String))
    (l : List (String × List String)) (acc : World × List String) :
    ∀ pa ∈ l, dcontains all (lastSegment pa.1) = true ∨
      dcontains ((l.foldl (groupStep all) acc).1).ns (lastSegment pa.1) = true := by
  induction l generalizing acc with
  | nil => intro pa hpa; simp at hpa
  | cons e rest ih =>
      intro pa hpa
      rw [List.foldl_cons]
      rcases List.mem_cons.mp hpa with hpa | hpa
      · subst hpa
        rcases bindBase_post acc.1.ghosts.length pa.1 all
            (bindAliases acc.1.ghosts.length pa.2 (acc.1.ns, acc.2)) with h | h
        · exact Or.inl h
        · right
          refine groupFold_contains all rest _ _ ?_
          rw [(groupStep_ns all acc pa).1]
          exact h
      · exact ih _ pa hpa

theorem groupFold_noop (all : List (String × String))
    (l : List (String × List String)) (acc : World × List String)
    (h : ∀ pa ∈ l, (∀ a ∈ pa.2, dcontains acc.1.ns a = true) ∧
        (dcontains all (lastSegment pa.1) = true ∨
          dcontains acc.1.ns (lastSegment pa.1) = true)) :
    ((l.foldl (groupStep all) acc).1).ns = acc.1.ns ∧
    (l.foldl (groupStep all) acc).2 = acc.2 := by
  induction l generalizing acc with
  | nil => exact ⟨rfl, rfl⟩
  | cons e rest ih =>
      rw [List.foldl_cons]
      have he := h e (List.mem_cons_self _ _)
      obtain ⟨hn, hl2⟩ := groupStep_noop all acc e he.1 he.2
      have hrest : ∀ pa ∈ rest, (∀ a ∈ pa.2,
          dcontains (groupStep all acc e).1.ns a = true) ∧
          (dcontains all (lastSegment pa.1) = true ∨
            dcontains (groupStep all acc e).1.ns (lastSegment pa.1) = true) := by
        intro pa hpa
        rw [hn]
        exact h pa (List.mem_cons_of_mem _ hpa)
      obtain ⟨ih1, ih2⟩ := ih _ hrest
      rw [ih1, ih2, hn, hl2]
      exact ⟨rfl, rfl⟩

theorem bindUserDefined_cons (e : String × UDEntry)
    (rest : List (String × UDEntry)) (acc : World × List String) :
    bindUserDefined (e :: rest) acc =
      bindUserDefined rest
        (if dcontains acc.1.ns e.1 then acc
         else
           ({ acc.1 with
              uds := acc.1.uds ++ [(⟨e.1, e.2.file_path, e.2.file_imports, []⟩ : UDGhost)],
              ns := dinsert acc.1.ns e.1 (Value.userGhost (acc.1.uds.length)) },
            acc.2 ++ [e.1 ++ " (user-defined)"])) := rfl

theorem bindUserDefined_mono (entries : List (String × UDEntry))
    (acc : World × List String) (k : String) (v : Value)
    (h : dlookup acc.1.ns k = some v) :
    dlookup ((bindUserDefined entries acc).1).ns k = some v := by
  induction entries generalizing acc with
  | nil => exact h
  | cons e rest ih =>
      rw [bindUserDefined_cons]
      apply ih
      by_cases hc : dcontains acc.1.ns e.1 = true
      · rw [if_pos hc]; exact h
      · rw [if_neg hc]
        have hke : k ≠ e.1 := by
          intro hke
          subst hke
          rw [dcontains_iff] at hc
          exact hc ⟨v, h⟩
        show dlookup (dinsert acc.1.ns e.1 (Value.userGhost acc.1.uds.length)) k = some v
        rw [dlookup_dinsert_ne _ _ _ _ hke]
        exact h

theorem bindUserDefined_contains (entries : List (String × UDEntry))
    (acc : World × List String) (k : String)
    (h : dcontains acc.1.ns k = true) :
    dcontains ((bindUserDefined entries acc).1).ns k = true := by
  rw [dcontains_iff] at h ⊢
  obtain ⟨v, hv⟩ := h
  exact ⟨v, bindUserDefined_mono entries acc k v hv⟩

theorem bindUserDefined_present (entries : List (String × UDEntry))
    (acc : World × List String) :
    ∀ e ∈ entries, dcontains ((bindUserDefined entries acc).1).ns e.1 = true := by
  induction entries generalizing acc with
  | nil => intro e he; simp at he
  | cons e0 rest ih =>
      intro e he
      rw [bindUserDefined_cons]
      rcases List.mem_cons.mp he with he | he
      · subst he
        apply bindUserDefined_contains
        by_cases hc : dcontains acc.1.ns e.1 = true
        · rw [if_pos hc]; exact hc
        · rw [if_neg hc]
          show dcontains (dinsert acc.1.ns e.1 (Value.userGhost acc.1.uds.length)) e.1 = true
          rw [dcontains_iff]
          exact ⟨_, dlookup_dinsert_self _ _ _⟩
      · exact ih _ e he

theorem bindUserDefined_noop (entries : List (String × UDEntry))
    (acc : World × List String)
    (h : ∀ e ∈ entries, dcontains acc.1.ns e.1 = true) :
    bindUserDefined entries acc = acc := by
  induction entries generalizing acc with
  | nil => rfl
  | cons e rest ih =>
      rw [bindUserDefined_cons]
      rw [if_pos (h e (List.mem_cons_self _ _))]
      exact ih acc (fun b hb => h b (List.mem_cons_of_mem _ hb))

theorem regAfterCustom_fields (r : Registry) (custom : List (String × String)) :
    (regAfterCustom r custom).builtin_modules = r.builtin_modules ∧
    (regAfterCustom r custom).user_defined = r.user_defined ∧
    (regAfterCustom r custom).store = r.store ∧
    (regAfterCustom r custom).user_modules = dmerge r.user_modules custom := by
  unfold regAfterCustom dmerge
  induction custom generalizing r with
  | nil => exact ⟨rfl, rfl, rfl, rfl⟩
  | cons e rest ih =>
      rw [List.foldl_cons, List.foldl_cons]
      exact ⟨(ih _).1, (ih _).2.1, (ih _).2.2.1, (ih _).2.2.2⟩

theorem dmerge_frame {β : Type} (d : List (String × β)) (l : List (String × β))
    (k : String) (h : k ∉ l.map Prod.fst) :
    dlookup (dmerge d l) k = dlookup d k := by
  unfold dmerge
  induction l generalizing d with
  | nil => rfl
  | cons e rest ih =>
      rw [List.map_cons, List.mem_cons] at h
      push_neg at h
      rw [List.foldl_cons]
      rw [ih _ h.2]
      exact dlookup_dinsert_ne _ _ _ _ h.1

theorem dmerge_lookup_last {β : Type} (d : List (String × β))
    (l : List (String × β)) (hnd : NoDupKeys l) :
    ∀ e ∈ l, dlookup (dmerge d l) e.1 = some e.2 := by
  unfold dmerge
  induction l generalizing d with
  | nil => intro e he; simp at he
  | cons e0 rest ih =>
      intro e he
      unfold NoDupKeys at hnd
      rw [List.map_cons, List.nodup_cons] at hnd
      rw [List.foldl_cons]
      rcases List.mem_cons.mp he with he | he
      · subst he
        show dlookup (dmerge (dinsert d e.1 e.2) rest) e.1 = some e.2
        rw [dmerge_frame _ _ _ hnd.1]
        exact dlookup_dinsert_self _ _ _
      · exact ih _ hnd.2 e he

theorem dmerge_idem {β : Type} (d : List (String × β)) (l : List (String × β))
    (h : ∀ e ∈ l, dlookup d e.1 = some e.2) :
    dmerge d l = d := by
  unfold dmerge
  induction l generalizing d with
  | nil => rfl
  | cons e rest ih =>
      rw [List.foldl_cons]
      rw [dinsert_same _ _ _ (h e (List.mem_cons_self _ _))]
      exact ih _ (fun b hb => h b (List.mem_cons_of_mem _ hb))

theorem Registry_ext (r1 r2 : Registry)
    (h1 : r1.builtin_modules = r2.builtin_modules)
    (h2 : r1.user_modules = r2.user_modules)
    (h3 : r1.user_defined = r2.user_defined)
    (h4 : r1.store = r2.store) : r1 = r2 := by
  cases r1
  cases r2
  simp_all

theorem regAfterCustom_idem (r : Registry) (custom : List (String × String))
    (hc : NoDupKeys custom) :
    regAfterCustom (regAfterCustom r custom) custom = regAfterCustom r custom := by
  obtain ⟨b1, d1, s1, u1⟩ := regAfterCustom_fields r custom
  obtain ⟨b2, d2, s2, u2⟩ := regAfterCustom_fields (regAfterCustom r custom) custom
  refine Registry_ext _ _ ?_ ?_ ?_ ?_
  · rw [b2]
  · rw [u2, u1]
    exact dmerge_idem _ _ (dmerge_lookup_last r.user_modules custom hc)
  · rw [d2]
  · rw [s2]

/-- C3: within one activation, exactly one `GhostModule` is allocated per
entry of the reverse target→aliases map (whose keys — the distinct
resolved targets — are pairwise different, and which covers every merged
entry's target), and every alias of a group that is bound during the
activation receives that group's single proxy instance (the identity
index `w.ghosts.length + i` for the group at position `i`); two aliases
of the same target thus never receive distinct instances (core.py lines
156-187). -/
theorem C3_one_proxy_per_target (r : Registry) (w : World)
    (custom : List (String × String)) (lud : Bool)
    (hb : NoDupKeys r.builtin_modules) :
    (activate r w custom lud).world.ghosts =
      w.ghosts ++ (m2aOf (regAfterCustom r custom)).map
        (fun e => (⟨e.1, minByLen e.2, e.1, none⟩ : GhostInfo)) ∧
    NoDupKeys (m2aOf (regAfterCustom r custom)) ∧
    (∀ e ∈ mergedOf (regAfterCustom r custom),
        dcontains (m2aOf (regAfterCustom r custom)) e.2 = true) ∧
    (∀ i pa, (m2aOf (regAfterCustom r custom)).get? i = some pa →
      ∀ a ∈ pa.2, dlookup w.ns a = none →
        dlookup (activate r w custom lud).world.ns a =
          some (Value.ghost (w.ghosts.length + i))) := by
  have hb1 : NoDupKeys (regAfterCustom r custom).builtin_modules := by
    rw [(regAfterCustom_fields r custom).1]
    exact hb
  have hndall : NoDupKeys (mergedOf (regAfterCustom r custom)) :=
    noDupKeys_dmerge _ _ hb1
  have hndm2a : NoDupKeys (m2aOf (regAfterCustom r custom)) :=
    noDupKeys_buildReverse _
  have hmemall : ∀ e ∈ mergedOf (regAfterCustom r custom),
      dlookup (mergedOf (regAfterCustom r custom)) e.1 = some e.2 :=
    fun e he => mem_dlookup _ e.1 e.2 hndall (by rw [Prod.mk.eta]; exact he)
  have hinv : ∀ p as, dlookup (m2aOf (regAfterCustom r custom)) p = some as →
      ∀ a ∈ as, dlookup (mergedOf (regAfterCustom r custom)) a = some p := by
    intro p as h
    exact buildReverse_sound (mergedOf (regAfterCustom r custom))
      (mergedOf (regAfterCustom r custom)) hmemall []
      (by intro p' as' h'; simp [dlookup] at h') p as h
  have hl : ∀ pa ∈ m2aOf (regAfterCustom r custom), ∀ a ∈ pa.2,
      dlookup (mergedOf (regAfterCustom r custom)) a = some pa.1 := by
    intro pa hpa a ha
    exact hinv pa.1 pa.2
      (mem_dlookup _ pa.1 pa.2 hndm2a (by rw [Prod.mk.eta]; exact hpa)) a ha
  refine ⟨activate_ghosts r w custom lud, hndm2a,
    fun e he => buildReverse_complete _ e he, ?_⟩
  intro i pa hi a ha hnone
  have hbind := groupFold_binds (mergedOf (regAfterCustom r custom))
    (m2aOf (regAfterCustom r custom)) (w, []) hl hndm2a i pa hi a ha hnone
  unfold activate
  cases lud with
  | false => exact hbind
  | true => exact bindUserDefined_mono _ _ a _ hbind

/-- Witness for C3 in the `fixTie` scenario: the two aliases `b` and `a`
of target `m` are both bound to the identity-equal proxy instance 0. -/
theorem C3_one_proxy_per_target_witness :
    dlookup (activate fixTie emptyWorld [] true).world.ns "a" =
      some (Value.ghost (emptyWorld.ghosts.length + 0)) ∧
    dlookup (activate fixTie emptyWorld [] true).world.ns "b" =
      some (Value.ghost (emptyWorld.ghosts.length + 0)) := by
  have h := C3_one_proxy_per_target fixTie emptyWorld [] true (by decide)
  exact ⟨h.2.2.2 0 ("m", ["b", "a"]) rfl "a" (by decide) rfl,
         h.2.2.2 0 ("m", ["b", "a"]) rfl "b" (by decide) rfl⟩

theorem activate_mono (r : Registry) (w : World)
    (custom : List (String × String)) (lud : Bool) (k : String) (v : Value)
    (h : dlookup w.ns k = some v) :
    dlookup (activate r w custom lud).world.ns k = some v := by
  unfold activate
  cases lud with
  | false => exact groupFold_mono _ _ _ k v h
  | true => exact bindUserDefined_mono _ _ k v (groupFold_mono _ _ _ k v h)

theorem activate_post (r : Registry) (w : World)
    (custom : List (String × String)) (lud : Bool) :
    (∀ pa ∈ m2aOf (regAfterCustom r custom), ∀ a ∈ pa.2,
        dcontains (activate r w custom lud).world.ns a = true) ∧
    (∀ pa ∈ m2aOf (regAfterCustom r custom),
        dcontains (mergedOf (regAfterCustom r custom)) (lastSegment pa.1) = true ∨
        dcontains (activate r w custom lud).world.ns (lastSegment pa.1) = true) ∧
    (lud = true → ∀ e ∈ (regAfterCustom r custom).user_defined,
        dcontains (activate r w custom lud).world.ns e.1 = true) := by
  unfold activate
  cases lud with
  | false =>
      refine ⟨?_, ?_, ?_⟩
      · intro pa hpa a ha
        exact groupFold_present _ _ _ pa hpa a ha
      · intro pa hpa
        exact groupFold_base_post _ _ _ pa hpa
      · intro h
        cases h
  | true =>
      refine ⟨?_, ?_, ?_⟩
      · intro pa hpa a ha
        exact bindUserDefined_contains _ _ _ (groupFold_present _ _ _ pa hpa a ha)
      · intro pa hpa
        rcases groupFold_base_post (mergedOf (regAfterCustom r custom))
            (m2aOf (regAfterCustom r custom)) (w, []) pa hpa with h | h
        · exact Or.inl h
        · exact Or.inr (bindUserDefined_contains _ _ _ h)
      · intro _ e he
        exact bindUserDefined_present _ _ e he

theorem activate_noop (r : Registry) (w : World)
    (custom : List (String × String)) (lud : Bool)
    (hr : regAfterCustom r custom = r)
    (hal : ∀ pa ∈ m2aOf r, ∀ a ∈ pa.2, dcontains w.ns a = true)
    (hbase : ∀ pa ∈ m2aOf r,
        dcontains (mergedOf r) (lastSegment pa.1) = true ∨
        dcontains w.ns (lastSegment pa.1) = true)
    (hud : lud = true → ∀ e ∈ r.user_defined, dcontains w.ns e.1 = true) :
    (activate r w custom lud).world.ns = w.ns ∧
    (activate r w custom lud).loadedNames = [] := by
  unfold activate
  rw [hr]
  have hfold := groupFold_noop (mergedOf r) (m2aOf r) (w, [])
    (fun pa hpa => ⟨hal pa hpa, hbase pa hpa⟩)
  cases lud with
  | false => exact ⟨hfold.1, hfold.2⟩
  | true =>
      have hudp : ∀ e ∈ r.user_defined,
          dcontains ((m2aOf r).foldl (groupStep (mergedOf r)) (w, [])).1.ns e.1
            = true := by
        intro e he
        rw [hfold.1]
        exact hud rfl e he
      show (bindUserDefined r.user_defined
          ((m2aOf r).foldl (groupStep (mergedOf r)) (w, []))).1.ns = w.ns ∧
        (bindUserDefined r.user_defined
          ((m2aOf r).foldl (groupStep (mergedOf r)) (w, []))).2 = []
      rw [bindUserDefined_noop _ _ hudp]
      exact ⟨hfold.1, hfold.2⟩

/-- C9: activation never overwrites a pre-existing namespace binding
(every key bound before the call keeps its value — core.py lines 178,
185, 192 all guard their writes with `not in namespace`), and a second
activation on the resulting namespace with the same arguments binds
nothing: the namespace is unchanged and the list of newly bound names is
empty. -/
theorem C9_no_overwrite_idempotent (r : Registry) (w : World)
    (custom : List (String × String)) (lud : Bool) (hc : NoDupKeys custom) :
    (∀ k v, dlookup w.ns k = some v →
        dlookup (activate r w custom lud).world.ns k = some v) ∧
    (activate (activate r w custom lud).reg (activate r w custom lud).world
        custom lud).world.ns = (activate r w custom lud).world.ns ∧
    (activate (activate r w custom lud).reg (activate r w custom lud).world
        custom lud).loadedNames = [] := by
  have hpost := activate_post r w custom lud
  have hnoop := activate_noop (activate r w custom lud).reg
    (activate r w custom lud).world custom lud
    (regAfterCustom_idem r custom hc) hpost.1 hpost.2.1 hpost.2.2
  exact ⟨fun k v h => activate_mono r w custom lud k v h, hnoop.1, hnoop.2⟩

/-- Witness for C9: activating over a namespace that already binds `pd`
keeps that binding, and a repeated activation changes nothing and binds
nothing. -/
theorem C9_no_overwrite_idempotent_witness :
    dlookup (activate fixPrec fixWpd [("pd", "pandas")] true).world.ns "pd" =
      some (Value.userVal 5) ∧
    (activate (activate fixPrec fixWpd [("pd", "pandas")] true).reg
        (activate fixPrec fixWpd [("pd", "pandas")] true).world
        [("pd", "pandas")] true).world.ns =
      (activate fixPrec fixWpd [("pd", "pandas")] true).world.ns ∧
    (activate (activate fixPrec fixWpd [("pd", "pandas")] true).reg
        (activate fixPrec fixWpd [("pd", "pandas")] true).world
        [("pd", "pandas")] true).loadedNames = [] := by
  have h := C9_no_overwrite_idempotent fixPrec fixWpd [("pd", "pandas")] true
    (by decide)
  exact ⟨h.1 "pd" (Value.userVal 5) rfl, h.2.1, h.2.2⟩

end Ghost
